import Mathlib

/-!
Verification of the LASD binary max-heap and heap-based priority queue.

Shallow embedding of `HeapVec` (src/heap/vec/heapvec.cpp), `PQHeap`
(src/pq/heap/pqheap.cpp) and the relevant parts of `Vector`
(src/vector/vector.cpp), instantiated at `Data = Int`.

The live prefix of the owned buffer is modelled as a `List Int`; the loops
of the C++ code become fuel-indexed structural recursions (each loop either
strictly increases or strictly decreases its index, so a fuel of the buffer
length is always sufficient; sufficiency is proved where needed).
-/

namespace LasdHeap

/-- Read `gE l i` of `Elements[i]`, with default `0` (the value-initialized
element `Data{}` for `Data = int`) outside the live range. -/
def gE (l : List Int) (i : Nat) : Int := l.getD i 0

/-- Model of `std::swap(Elements[i], Elements[j])` on the buffer. -/
def swapL (l : List Int) (i j : Nat) : List Int :=
  (l.set i (gE l j)).set j (gE l i)

/-- Function `GetParent` from heapvec.cpp: `(index - 1) / 2`. -/
def getParent (i : Nat) : Nat := (i - 1) / 2

/-- Index `c` is a child of `p` (`GetLeftChild`/`GetRightChild`). -/
def isChild (p c : Nat) : Prop := c = 2 * p + 1 ∨ c = 2 * p + 2

/-- The max-heap ordering restricted to the window `[0, w)`:
every in-window parent/child pair is ordered. -/
def heapPropW (w : Nat) (l : List Int) : Prop :=
  ∀ p c, c < w → isChild p c → gE l c ≤ gE l p

/-- The max-heap ordering on the whole live buffer. -/
def heapProp (l : List Int) : Prop := heapPropW l.length l

/-- Check `IsHeap` from heapvec.cpp: scan every index, check the (in-range) left
and right children against the parent; report the first violation. -/
def isHeapChk (l : List Int) : Bool :=
  (List.range l.length).all (fun i =>
    (!(2 * i + 1 < l.length) || !(gE l i < gE l (2 * i + 1))) &&
    (!(2 * i + 2 < l.length) || !(gE l i < gE l (2 * i + 2))))

/-- Relation stating that `j` lies in the subtree rooted at `i` (array-index form). -/
inductive Desc : Nat → Nat → Prop where
  | refl (i : Nat) : Desc i i
  | left {i k : Nat} : Desc (2 * i + 1) k → Desc i k
  | right {i k : Nat} : Desc (2 * i + 2) k → Desc i k

/-- Model of `HeapVec::HeapifyDown` generalized over the working window `[0, w)`
(the member function runs with `w = size`; `Sort`'s inner loop narrows it).
The `while` loop becomes fuel-indexed structural recursion; the index grows
strictly at each iteration, so any `fuel ≥ w` is enough. -/
def siftDownW : Nat → List Int → Nat → Nat → List Int
  | 0, l, _, _ => l
  | fuel + 1, l, w, i =>
    if 2 * i + 1 < w then
      let lc := if 2 * i + 2 < w ∧ gE l (2 * i + 1) < gE l (2 * i + 2)
        then 2 * i + 2 else 2 * i + 1
      if gE l lc ≤ gE l i then l
      else siftDownW fuel (swapL l i lc) w lc
    else l

/-- Model of `HeapVec::HeapifyUp`: bubble the element at `index` towards the root
while it exceeds its parent.  The index strictly decreases, so fuel
`index + 1` always suffices. -/
def heapifyUpF : Nat → List Int → Nat → List Int
  | 0, l, _ => l
  | fuel + 1, l, i =>
    if 0 < i then
      if gE l (getParent i) < gE l i then
        heapifyUpF fuel (swapL l i (getParent i)) (getParent i)
      else l
    else l

def heapifyUp (l : List Int) (i : Nat) : List Int := heapifyUpF (i + 1) l i

/-- Model of `HeapVec::HeapifyDown` proper: the window is the whole live buffer. -/
def heapifyDown (l : List Int) (i : Nat) : List Int :=
  siftDownW l.length l l.length i

/-- The `for (long i = (size/2) - 1; i >= 0; --i) HeapifyDown(i);` loop of
`HeapVec::Heapify`, unrolled from its starting index down to `0`. -/
def heapifyLoop (l : List Int) : Nat → List Int
  | 0 => heapifyDown l 0
  | k + 1 => heapifyLoop (heapifyDown l (k + 1)) k

/-- Model of `HeapVec::Heapify` (Floyd's bottom-up construction). -/
def heapify (l : List Int) : List Int :=
  if 1 < l.length then heapifyLoop l (l.length / 2 - 1) else l

/-- The manual heapify-down loop inside `HeapVec::Sort` (`largest` starts at
`current`, is challenged by the two in-window children, and a swap happens
only when it moved). -/
def sortSift : Nat → List Int → Nat → Nat → List Int
  | 0, l, _, _ => l
  | fuel + 1, l, hs, cur =>
    let a := if 2 * cur + 1 < hs ∧ gE l cur < gE l (2 * cur + 1)
      then 2 * cur + 1 else cur
    let b := if 2 * cur + 2 < hs ∧ gE l a < gE l (2 * cur + 2)
      then 2 * cur + 2 else a
    if b ≠ cur then sortSift fuel (swapL l cur b) hs b else l

/-- The extraction loop of `HeapVec::Sort`
(`for (ulong i = size - 1; i > 0; --i) { swap(E[0], E[i]); sift window i }`),
unrolled from its starting index down to `1`. -/
def sortLoop (l : List Int) : Nat → List Int
  | 0 => l
  | i + 1 => sortLoop (sortSift (i + 1) (swapL l 0 (i + 1)) (i + 1) 0) i

/-- Model of `HeapVec::Sort`: heapify, then repeatedly move the window maximum to the
window's end. -/
def sortHV (l : List Int) : List Int :=
  if 1 < l.length then sortLoop (heapify l) (l.length - 1) else l

/-- The removal step shared by `PQHeap::RemoveTip` / `PQHeap::TipNRemove`
when `size ≥ 2`: `Elements[0] = move(Elements[size-1]); size--;
HeapifyDown(0);`, acting on the live prefix. -/
def removeTipL (l : List Int) : List Int :=
  heapifyDown ((l.set 0 (gE l (l.length - 1))).take (l.length - 1)) 0

/-- Repeated `TipNRemove()` until empty, at the level of the live prefix:
capture `Elements[0]`, then either set `size = 0` (singleton case) or do the
move-last-to-root removal. -/
def extractL : Nat → List Int → List Int
  | 0, _ => []
  | fuel + 1, l =>
    if l.length = 0 then []
    else gE l 0 :: extractL fuel (if l.length = 1 then [] else removeTipL l)

/-- Full extraction: `size` rounds always empty the structure. -/
def extractAll (l : List Int) : List Int := extractL l.length l

/-- The observable state of a `PQHeap<int>` instance:
`elems` is the live prefix `Elements[0..size)` (so `size = elems.length`),
`capacity` is the `PQHeap::capacity` field, and `alloc` is the length of
the array actually allocated for `Elements` (`new Data[alloc]`). -/
structure PQState where
  elems : List Int
  capacity : Nat
  alloc : Nat
  deriving DecidableEq, Repr

/-- The spec's error taxonomy, one constructor per throw site of pqheap.cpp
(`std::length_error("Priority queue is empty")`,
`std::length_error("Value not found")`, `std::out_of_range`). -/
inductive PQError where
  | EmptyCollection
  | NotFound
  | IndexOutOfRange
  deriving DecidableEq, Repr

/-- Default constructor `PQHeap()`: null buffer, `size = 0`, `capacity = 0`. -/
def pqDefault : PQState := ⟨[], 0, 0⟩

/-- Constructor `PQHeap(const ulong newSize)`: delegates to `Vector(newSize)`, which
allocates `newSize` value-initialized elements and sets `size = newSize`;
then `capacity = newSize`. -/
def pqOfCapacity (c : Nat) : PQState := ⟨List.replicate c 0, c, c⟩

/-- Constructor `PQHeap(const TraversableContainer&)`: the `Vector` base copies the `n`
traversed elements (`size = n`, allocation of `n`), `HeapVec` runs
`Heapify()`, then `capacity = size`. -/
def pqOfList (l : List Int) : PQState := ⟨heapify l, l.length, l.length⟩

/-- Copy construction `PQHeap(const PQHeap&)`: the `Vector` copy constructor
allocates exactly `other.size` slots, while `capacity` is copied verbatim. -/
def pqCopy (s : PQState) : PQState := ⟨s.elems, s.capacity, s.elems.length⟩

/-- Copy assignment `operator=(const PQHeap&)`: the `Vector` copy assignment
reallocates to exactly `other.size` slots; `capacity = other.capacity`. -/
def pqCopyAssign (_target source : PQState) : PQState :=
  ⟨source.elems, source.capacity, source.elems.length⟩

/-- Move construction `PQHeap(PQHeap&&)`: the `Vector` move constructor swaps
buffers with a default-initialized vector, then `capacity = other.capacity;
other.capacity = 0`.  Returns (new object, source afterwards). -/
def pqMoveCtor (s : PQState) : PQState × PQState :=
  (⟨s.elems, s.capacity, s.alloc⟩, ⟨[], 0, 0⟩)

/-- Move assignment `operator=(PQHeap&&)`: the `Vector` move assignment swaps
`Elements` and `size` of target and source, then `capacity =
other.capacity; other.capacity = 0`.  Returns (target afterwards, source
afterwards). -/
def pqMoveAssign (target source : PQState) : PQState × PQState :=
  (⟨source.elems, source.capacity, source.alloc⟩,
   ⟨target.elems, 0, target.alloc⟩)

/-- The doubling loop of `EnsureCapacity`
(`while (newCapacity < minCapacity) newCapacity *= 2;`); fuel-indexed, any
fuel ≥ `minCapacity` suffices for a positive start value. -/
def growCapF : Nat → Nat → Nat → Nat
  | 0, _, c => c
  | fuel + 1, minCap, c => if c < minCap then growCapF fuel minCap (2 * c) else c

def growCap (minCap c : Nat) : Nat := growCapF minCap minCap c

/-- Model of `PQHeap::EnsureCapacity(minCapacity)`: reallocate (moving the `size`
live elements in order) only when `capacity < minCapacity`, doubling from
`max(capacity, 1)`. -/
def ensureCapacity (minCap : Nat) (s : PQState) : PQState :=
  if s.capacity < minCap then
    let nc := growCap minCap (if s.capacity = 0 then 1 else s.capacity)
    ⟨s.elems, nc, nc⟩
  else s

/-- Model of `PQHeap::ShrinkCapacity()`: when `capacity > 4` and
`size ≤ capacity / 4`, halve the capacity but never below `size`. -/
def shrinkCapacity (s : PQState) : PQState :=
  if 4 < s.capacity ∧ s.elems.length ≤ s.capacity / 4 then
    let nc := if s.capacity / 2 < s.elems.length
      then s.elems.length else s.capacity / 2
    ⟨s.elems, nc, nc⟩
  else s

/-- Model of `PQHeap::Insert`: `EnsureCapacity(size + 1)`, write at index `size`,
`size++`, `HeapifyUp(size - 1)`. -/
def pqInsert (v : Int) (s : PQState) : PQState :=
  let s1 := ensureCapacity (s.elems.length + 1) s
  ⟨heapifyUp (s1.elems ++ [v]) s1.elems.length, s1.capacity, s1.alloc⟩

/-- Model of `PQHeap::Tip`: read-only peek at `Elements[0]`, throwing on empty. -/
def pqTip (s : PQState) : Except PQError Int :=
  if s.elems.length = 0 then .error .EmptyCollection
  else .ok (gE s.elems 0)

/-- Model of `PQHeap::RemoveTip`; the error branch throws before any mutation, so it
returns the state unchanged. -/
def pqRemoveTip (s : PQState) : Except PQError Unit × PQState :=
  if s.elems.length = 0 then (.error .EmptyCollection, s)
  else if s.elems.length = 1 then
    (.ok (), shrinkCapacity ⟨[], s.capacity, s.alloc⟩)
  else
    (.ok (), shrinkCapacity ⟨removeTipL s.elems, s.capacity, s.alloc⟩)

/-- Model of `PQHeap::TipNRemove`: capture `Elements[0]`, then remove as in
`RemoveTip`. -/
def pqTipNRemove (s : PQState) : Except PQError Int × PQState :=
  if s.elems.length = 0 then (.error .EmptyCollection, s)
  else if s.elems.length = 1 then
    (.ok (gE s.elems 0), shrinkCapacity ⟨[], s.capacity, s.alloc⟩)
  else
    (.ok (gE s.elems 0), shrinkCapacity ⟨removeTipL s.elems, s.capacity, s.alloc⟩)

/-- The linear scan of the value-based `Change`
(`while (idx < size && !(Elements[idx] == oldValue)) ++idx;`). -/
def findFirst (v : Int) : List Int → Nat
  | [] => 0
  | x :: xs => if x = v then 0 else findFirst v xs + 1

/-- Shared mutation tail of both `Change` overloads: capture the old value,
overwrite, then heapify up or down according to the comparison. -/
def changeAt (idx : Nat) (newV : Int) (l : List Int) : List Int :=
  let oldD := gE l idx
  let l2 := l.set idx newV
  if oldD < newV then heapifyUp l2 idx
  else if newV < oldD then heapifyDown l2 idx
  else l2

/-- Model of `PQHeap::Change(const Data&, const Data&)` (value-based). -/
def pqChangeValue (oldV newV : Int) (s : PQState) :
    Except PQError Unit × PQState :=
  let idx := findFirst oldV s.elems
  if idx = s.elems.length then (.error .NotFound, s)
  else (.ok (), ⟨changeAt idx newV s.elems, s.capacity, s.alloc⟩)

/-- Model of `PQHeap::Change(const ulong&, const Data&)` (index-based). -/
def pqChangeIndex (idx : Nat) (newV : Int) (s : PQState) :
    Except PQError Unit × PQState :=
  if s.elems.length ≤ idx then (.error .IndexOutOfRange, s)
  else (.ok (), ⟨changeAt idx newV s.elems, s.capacity, s.alloc⟩)

/-- The public `HeapVec::Heapify()` call on a priority queue. -/
def pqHeapify (s : PQState) : PQState := ⟨heapify s.elems, s.capacity, s.alloc⟩

/-- Model of `Vector::operator==`: length check, then element-by-element scan. -/
def vecEqB (l1 l2 : List Int) : Bool :=
  if l1.length = l2.length
  then (List.range l1.length).all (fun i => gE l1 i == gE l2 i)
  else false

/-- Model of `PQHeap::operator==`: it delegates to the `HeapVec`/`Vector` comparison;
the `capacity` member is not consulted. -/
def pqEqB (a b : PQState) : Bool := vecEqB a.elems b.elems

/-- Model of `PQHeap::operator!=`: the negation of `operator==`. -/
def pqNeB (a b : PQState) : Bool := !(pqEqB a b)

/-- The mutating operations named by the invariant-preservation property. -/
inductive PQOp where
  | insert (v : Int)
  | removeTip
  | tipNRemove
  | changeValue (oldV newV : Int)
  | changeIndex (idx : Nat) (v : Int)
  | heapifyCall
  deriving DecidableEq, Repr

def applyOp (s : PQState) (op : PQOp) : PQState :=
  match op with
  | .insert v => pqInsert v s
  | .removeTip => (pqRemoveTip s).2
  | .tipNRemove => (pqTipNRemove s).2
  | .changeValue o n => (pqChangeValue o n s).2
  | .changeIndex i v => (pqChangeIndex i v s).2
  | .heapifyCall => pqHeapify s

def applyOps (ops : List PQOp) (s : PQState) : PQState := ops.foldl applyOp s

/-- Building a priority queue by a sequence of `Insert` calls on a
default-constructed instance. -/
def pqInsertAll (l : List Int) : PQState :=
  l.foldl (fun s v => pqInsert v s) pqDefault

/-- Repeated `TipNRemove()` until the queue reports empty. -/
def pqExtract : Nat → PQState → List Int
  | 0, _ => []
  | fuel + 1, s =>
    match pqTipNRemove s with
    | (Except.ok v, s2) => v :: pqExtract fuel s2
    | (Except.error _, _) => []

def pqExtractAll (s : PQState) : List Int := pqExtract s.elems.length s

/-- The state used to exhibit the copy-construction bug for C3: insert five
elements (capacity grows 0→1→2→4→8), remove two (no shrink: 3 > 8/4), then
copy-construct.  The copy allocates only `size = 3` buffer slots but copies
`capacity = 8`. -/
def c3Copied : PQState :=
  pqCopy (applyOps [PQOp.insert 1, PQOp.insert 2, PQOp.insert 3,
    PQOp.insert 4, PQOp.insert 5, PQOp.removeTip, PQOp.removeTip] pqDefault)

theorem gE_nil (i : Nat) : gE [] i = 0 := by cases i <;> rfl

theorem gE_of_lt {l : List Int} {i : Nat} (h : i < l.length) :
    gE l i = l[i] := List.getD_eq_getElem l 0 h

theorem gE_of_ge {l : List Int} {i : Nat} (h : l.length ≤ i) :
    gE l i = 0 := List.getD_eq_default l 0 h

theorem length_swapL (l : List Int) (i j : Nat) :
    (swapL l i j).length = l.length := by
  simp [swapL]

theorem gE_set_eq {l : List Int} {i : Nat} (x : Int) (h : i < l.length) :
    gE (l.set i x) i = x := by
  rw [gE, List.getD_eq_getElem _ 0 (by simpa using h)]
  simp [List.getElem_set_self (by simpa using h)]

theorem gE_set_ne {l : List Int} {i j : Nat} (x : Int) (h : i ≠ j) :
    gE (l.set i x) j = gE l j := by
  by_cases hj : j < l.length
  · rw [gE, List.getD_eq_getElem _ 0 (by simpa using hj),
      gE, List.getD_eq_getElem _ 0 hj]
    exact List.getElem_set_ne h ..
  · rw [gE_of_ge (by simpa using Nat.le_of_not_lt hj),
      gE_of_ge (Nat.le_of_not_lt hj)]

theorem gE_swapL_left {l : List Int} {i j : Nat}
    (hi : i < l.length) (hij : i ≠ j) :
    gE (swapL l i j) i = gE l j := by
  rw [swapL, gE_set_ne _ (fun h => hij h.symm), gE_set_eq _ hi]

theorem gE_swapL_right {l : List Int} {i j : Nat} (hj : j < l.length) :
    gE (swapL l i j) j = gE l i := by
  rw [swapL, gE_set_eq _ (by simpa using hj)]

theorem gE_swapL_other {l : List Int} {i j k : Nat}
    (hik : k ≠ i) (hjk : k ≠ j) :
    gE (swapL l i j) k = gE l k := by
  rw [swapL, gE_set_ne _ (fun h => hjk h.symm), gE_set_ne _ (fun h => hik h.symm)]

/-- Replacing one live element exchanges exactly that element in the multiset. -/
theorem multiset_set (x : Int) : ∀ {l : List Int} {i : Nat}, i < l.length →
    (↑(l.set i x) : Multiset Int) + {gE l i} = (↑l : Multiset Int) + {x} := by
  intro l
  induction l with
  | nil => intro i h; cases h
  | cons a t ih =>
    intro i h
    cases i with
    | zero =>
      show (↑(x :: t) : Multiset Int) + {a} = (↑(a :: t) : Multiset Int) + {x}
      rw [← Multiset.cons_coe, ← Multiset.cons_coe,
        add_comm _ ({a} : Multiset Int), Multiset.singleton_add,
        add_comm _ ({x} : Multiset Int), Multiset.singleton_add]
      exact (Multiset.cons_swap x a ↑t).symm
    | succ n =>
      have hn : n < t.length := by simpa using h
      have hgE : gE (a :: t) (n + 1) = gE t n := by simp [gE]
      rw [hgE, List.set_cons_succ, ← Multiset.cons_coe, ← Multiset.cons_coe,
        Multiset.cons_add, Multiset.cons_add, ih hn]

theorem multiset_swapL {l : List Int} {i j : Nat}
    (hi : i < l.length) (hj : j < l.length) :
    (↑(swapL l i j) : Multiset Int) = (↑l : Multiset Int) := by
  have hj2 : j < (l.set i (gE l j)).length := by simpa using hj
  have hread : gE (l.set i (gE l j)) j = gE l j := by
    by_cases hij : i = j
    · subst hij; exact gE_set_eq _ hi
    · exact gE_set_ne _ hij
  have h1 := multiset_set (gE l i) (l := l.set i (gE l j)) (i := j) hj2
  rw [hread] at h1
  have h2 := multiset_set (gE l j) (l := l) (i := i) hi
  exact add_right_cancel ((h1.trans h2).trans rfl : (↑(swapL l i j) : Multiset Int) + {gE l j} = (↑l : Multiset Int) + {gE l j})

theorem perm_swapL {l : List Int} {i j : Nat}
    (hi : i < l.length) (hj : j < l.length) :
    (swapL l i j).Perm l :=
  Multiset.coe_eq_coe.mp (multiset_swapL hi hj)

theorem lt_left (i : Nat) : i < 2 * i + 1 := by omega

theorem lt_right (i : Nat) : i < 2 * i + 2 := by omega

theorem isChild_lt {p c : Nat} (h : isChild p c) : p < c := by
  rcases h with h | h <;> omega

theorem isChild_parent {c : Nat} (h : 0 < c) : isChild (getParent c) c := by
  unfold getParent isChild; omega

theorem isChild_parent_eq {p c : Nat} (h : isChild p c) : getParent c = p := by
  unfold getParent; rcases h with h | h <;> omega

theorem Desc.le {i j : Nat} (h : Desc i j) : i ≤ j := by
  induction h with
  | refl => exact Nat.le_refl _
  | left _ ih => omega
  | right _ ih => omega

theorem Desc.child {p c j : Nat} (hc : isChild p c) (h : Desc c j) : Desc p j := by
  rcases hc with rfl | rfl
  · exact .left h
  · exact .right h

theorem Desc.child_self {p c : Nat} (hc : isChild p c) : Desc p c :=
  Desc.child hc (.refl c)

theorem Desc.trans {i j k : Nat} (h1 : Desc i j) (h2 : Desc j k) : Desc i k := by
  induction h1 with
  | refl => exact h2
  | left _ ih => exact .left (ih h2)
  | right _ ih => exact .right (ih h2)

theorem not_desc_of_lt {i j : Nat} (h : j < i) : ¬ Desc i j :=
  fun hd => absurd hd.le (by omega)

theorem desc_zero (j : Nat) : Desc 0 j := by
  induction j using Nat.strong_induction_on with
  | _ j ih =>
    cases Nat.eq_zero_or_pos j with
    | inl h => exact h ▸ .refl 0
    | inr h =>
      have hp := isChild_parent h
      have hlt : getParent j < j := isChild_lt hp
      exact Desc.trans (ih _ hlt) (Desc.child_self hp)

/-- Each node of a subtree other than its root enters it through its parent. -/
theorem Desc.parent_of_ne {i j : Nat} (h : Desc i j) (hne : j ≠ i) :
    Desc i (getParent j) := by
  induction h with
  | refl i => exact absurd rfl hne
  | @left i k h ih =>
    by_cases hk : k = 2 * i + 1
    · subst hk
      have : getParent (2 * i + 1) = i := isChild_parent_eq (Or.inl rfl)
      rw [this]; exact .refl i
    · exact .left (ih hk)
  | @right i k h ih =>
    by_cases hk : k = 2 * i + 2
    · subst hk
      have : getParent (2 * i + 2) = i := isChild_parent_eq (Or.inr rfl)
      rw [this]; exact .refl i
    · exact .right (ih hk)

/-- A child of a node outside the subtree of `i` is itself outside (unless
it is `i` itself, the only entry point of the subtree). -/
theorem desc_of_child {i p c : Nat} (hc : isChild p c) (hne : c ≠ i)
    (hd : Desc i c) : Desc i p := by
  have := hd.parent_of_ne hne
  rwa [isChild_parent_eq hc] at this

/-- Inside the window `w`, every element of a heap-ordered subtree is
bounded by the value at the subtree's root. -/
theorem desc_le_root {w : Nat} {l : List Int} {r : Nat}
    (hh : ∀ p c, c < w → isChild p c → Desc r p → gE l c ≤ gE l p) :
    ∀ j, Desc r j → j < w → gE l j ≤ gE l r := by
  intro j
  induction j using Nat.strong_induction_on with
  | _ j ih =>
    intro hd hj
    by_cases hjr : j = r
    · subst hjr; exact le_refl _
    · have hpj : isChild (getParent j) j := by
        refine isChild_parent ?_
        rcases Nat.eq_zero_or_pos j with h0 | h0
        · subst h0
          exact absurd (Nat.le_zero.mp hd.le) (fun h => hjr (h ▸ rfl))
        · exact h0
      have hdp : Desc r (getParent j) := hd.parent_of_ne hjr
      have h1 : gE l j ≤ gE l (getParent j) := hh _ _ hj hpj hdp
      have h2 : gE l (getParent j) ≤ gE l r :=
        ih _ (isChild_lt hpj) hdp (lt_of_le_of_lt (Nat.le_of_lt (isChild_lt hpj)) hj)
      exact le_trans h1 h2

/-- In a heap-ordered window, every element is bounded by the root value. -/
theorem heapPropW_le_root {w : Nat} {l : List Int} (hh : heapPropW w l) :
    ∀ j, j < w → gE l j ≤ gE l 0 := by
  intro j hj
  exact desc_le_root (fun p c hc hch _ => hh p c hc hch) j (desc_zero j) hj

theorem siftDownW_length (fuel : Nat) : ∀ (l : List Int) (w i : Nat),
    (siftDownW fuel l w i).length = l.length := by
  induction fuel with
  | zero => intro l w i; rfl
  | succ fuel ih =>
    intro l w i
    simp only [siftDownW]
    split
    · split <;> split
      · rfl
      · rw [ih, length_swapL]
      · rfl
      · rw [ih, length_swapL]
    · rfl

theorem siftDownW_multiset (fuel : Nat) : ∀ (l : List Int) (w i : Nat),
    w ≤ l.length →
    (↑(siftDownW fuel l w i) : Multiset Int) = (↑l : Multiset Int) := by
  induction fuel with
  | zero => intro l w i _; rfl
  | succ fuel ih =>
    intro l w i hw
    simp only [siftDownW]
    split
    · next hlw =>
      set lc := if 2 * i + 2 < w ∧ gE l (2 * i + 1) < gE l (2 * i + 2)
        then 2 * i + 2 else 2 * i + 1 with hlc
      have hlcw : lc < w := by
        rw [hlc]; split <;> omega
      split
      · rfl
      · rw [ih _ w lc (by rw [length_swapL]; exact hw)]
        exact multiset_swapL (by omega) (by omega)
    · rfl

theorem siftDownW_outside (fuel : Nat) : ∀ (l : List Int) (w i : Nat)
    (j : Nat), ¬(Desc i j ∧ j < w) → gE (siftDownW fuel l w i) j = gE l j := by
  induction fuel with
  | zero => intro l w i j _; rfl
  | succ fuel ih =>
    intro l w i j hj
    simp only [siftDownW]
    split
    · next hlw =>
      set lc := if 2 * i + 2 < w ∧ gE l (2 * i + 1) < gE l (2 * i + 2)
        then 2 * i + 2 else 2 * i + 1 with hlc
      have hlcw : lc < w := by rw [hlc]; split <;> omega
      have hlci : isChild i lc := by
        rw [hlc]; split
        · exact Or.inr rfl
        · exact Or.inl rfl
      split
      · rfl
      · have hj2 : ¬(Desc lc j ∧ j < w) := by
          rintro ⟨hd, hjw⟩
          exact hj ⟨Desc.trans (Desc.child_self hlci) hd, hjw⟩
        rw [ih _ w lc j hj2]
        have hji : j ≠ i := fun h => hj ⟨h ▸ Desc.refl i, h ▸ by omega⟩
        have hjlc : j ≠ lc := fun h => hj ⟨h ▸ Desc.child_self hlci, h ▸ hlcw⟩
        exact gE_swapL_other hji hjlc
    · rfl

theorem siftDownW_values (fuel : Nat) : ∀ (l : List Int) (w i : Nat),
    w ≤ l.length → ∀ j, Desc i j → j < w →
    ∃ k, Desc i k ∧ k < w ∧ gE (siftDownW fuel l w i) j = gE l k := by
  induction fuel with
  | zero => intro l w i _ j hd hj; exact ⟨j, hd, hj, rfl⟩
  | succ fuel ih =>
    intro l w i hw j hd hj
    simp only [siftDownW]
    split
    · next hlw =>
      set lc := if 2 * i + 2 < w ∧ gE l (2 * i + 1) < gE l (2 * i + 2)
        then 2 * i + 2 else 2 * i + 1 with hlc
      have hlcw : lc < w := by rw [hlc]; split <;> omega
      have hlci : isChild i lc := by
        rw [hlc]; split
        · exact Or.inr rfl
        · exact Or.inl rfl
      have hilc : i < lc := isChild_lt hlci
      split
      · exact ⟨j, hd, hj, rfl⟩
      · have hw2 : w ≤ (swapL l i lc).length := by rw [length_swapL]; exact hw
        by_cases hsub : Desc lc j
        · obtain ⟨k, hk1, hk2, hk3⟩ := ih (swapL l i lc) w lc hw2 j hsub hj
          by_cases hklc : k = lc
          · subst hklc
            refine ⟨i, Desc.refl i, by omega, ?_⟩
            rw [hk3, gE_swapL_right (by omega)]
          · have hki : k ≠ i := by
              have := hk1.le; omega
            refine ⟨k, Desc.trans (Desc.child_self hlci) hk1, hk2, ?_⟩
            rw [hk3, gE_swapL_other hki (fun h => hklc h)]
        · have hout : gE (siftDownW fuel (swapL l i lc) w lc) j
              = gE (swapL l i lc) j := siftDownW_outside fuel _ w lc j
            (fun h => hsub h.1)
          by_cases hji : j = i
          · subst hji
            refine ⟨lc, Desc.child_self hlci, hlcw, ?_⟩
            rw [hout]
            exact gE_swapL_left (by omega) (by omega)
          · have hjlc : j ≠ lc := fun h => hsub (h ▸ Desc.refl lc)
            exact ⟨j, hd, hj, by rw [hout, gE_swapL_other hji hjlc]⟩
    · exact ⟨j, hd, hj, rfl⟩

/-- Main lemma for `HeapifyDown`: if every parent/child pair inside the
window whose parent lies strictly inside the subtree of `i` is ordered,
then after sifting down at `i` every in-window pair with parent in the
subtree of `i` (including `i` itself) is ordered. -/
theorem siftDownW_heap (fuel : Nat) : ∀ (l : List Int) (w i : Nat),
    w ≤ l.length → w - i ≤ fuel →
    (∀ p c, c < w → isChild p c → Desc i p → p ≠ i → gE l c ≤ gE l p) →
    ∀ p c, c < w → isChild p c → Desc i p →
      gE (siftDownW fuel l w i) c ≤ gE (siftDownW fuel l w i) p := by
  induction fuel with
  | zero =>
    intro l w i _ hf A p c hcw hch hdp
    exfalso
    have h1 := hdp.le
    have h2 := isChild_lt hch
    omega
  | succ fuel ih =>
    intro l w i hw hf A p c hcw hch hdp
    simp only [siftDownW]
    split
    · next hlw =>
      set lc := if 2 * i + 2 < w ∧ gE l (2 * i + 1) < gE l (2 * i + 2)
        then 2 * i + 2 else 2 * i + 1 with hlc
      have hlcw : lc < w := by rw [hlc]; split <;> omega
      have hlci : isChild i lc := by
        rw [hlc]; split
        · exact Or.inr rfl
        · exact Or.inl rfl
      have hilc : i < lc := isChild_lt hlci
      have hmax : ∀ c', isChild i c' → c' < w → gE l c' ≤ gE l lc := by
        intro c' hc' hcw'
        rw [hlc]
        split
        · next hcond =>
          rcases hc' with rfl | rfl
          · exact le_of_lt hcond.2
          · exact le_refl _
        · next hcond =>
          rcases hc' with rfl | rfl
          · exact le_refl _
          · exact le_of_not_lt (fun hlt => hcond ⟨hcw', hlt⟩)
      split
      · next hstop =>
        by_cases hpi : p = i
        · subst hpi
          exact le_trans (hmax c hch hcw) hstop
        · exact A p c hcw hch hdp hpi
      · next hgo =>
        have hswap : gE l i < gE l lc := not_le.mp hgo
        set l2 := swapL l i lc with hl2
        have hw2 : w ≤ l2.length := by rw [hl2, length_swapL]; exact hw
        have hf2 : w - lc ≤ fuel := by omega
        have hA2 : ∀ p' c', c' < w → isChild p' c' → Desc lc p' → p' ≠ lc →
            gE l2 c' ≤ gE l2 p' := by
          intro p' c' hc'w hch' hdp' hne'
          have hp'gt : lc < p' := lt_of_le_of_ne hdp'.le (Ne.symm hne')
          have hc'gt : p' < c' := isChild_lt hch'
          rw [hl2, gE_swapL_other (by omega : c' ≠ i) (by omega : c' ≠ lc),
            gE_swapL_other (by omega : p' ≠ i) (by omega : p' ≠ lc)]
          exact A p' c' hc'w hch'
            (Desc.trans (Desc.child_self hlci) hdp') (by omega)
        by_cases hplc : Desc lc p
        · exact ih l2 w lc hw2 hf2 hA2 p c hcw hch hplc
        · have hri : gE (siftDownW fuel l2 w lc) i = gE l lc := by
            rw [siftDownW_outside fuel l2 w lc i
              (fun h => absurd h.1.le (by omega)), hl2,
              gE_swapL_left (by omega) (by omega)]
          by_cases hpi : p = i
          · subst hpi
            by_cases hclc : c = lc
            · subst hclc
              obtain ⟨k, hk1, hk2, hk3⟩ :=
                siftDownW_values fuel l2 w lc hw2 lc (Desc.refl lc) hlcw
              rw [hri, hk3]
              by_cases hklc : k = lc
              · subst hklc
                rw [hl2, gE_swapL_right (by omega)]
                exact le_of_lt hswap
              · have hkgt : lc < k := lt_of_le_of_ne hk1.le (Ne.symm hklc)
                rw [hl2, gE_swapL_other (by omega : k ≠ p) hklc]
                exact desc_le_root (fun p' c' hc' hch' hd' =>
                  A p' c' hc' hch' (Desc.trans (Desc.child_self hlci) hd')
                    (by have := hd'.le; omega)) k hk1 hk2
            · have hcs : ¬ Desc lc c := by
                intro hd
                have := hd.parent_of_ne hclc
                rw [isChild_parent_eq hch] at this
                exact absurd this.le (by omega)
              have hci : c ≠ p := by have := isChild_lt hch; omega
              have hrc : gE (siftDownW fuel l2 w lc) c = gE l c := by
                rw [siftDownW_outside fuel l2 w lc c (fun h => hcs h.1), hl2,
                  gE_swapL_other hci hclc]
              rw [hri, hrc]
              exact hmax c hch hcw
          · have hpgt : i < p := lt_of_le_of_ne hdp.le (Ne.symm hpi)
            have hplc2 : p ≠ lc := fun h => hplc (h ▸ Desc.refl lc)
            have hcs : ¬ Desc lc c := by
              intro hd
              rcases eq_or_ne c lc with h | h
              · subst h
                have h1 := isChild_parent_eq hch
                have h2 := isChild_parent_eq hlci
                exact hpi (h1.symm.trans h2)
              · have := hd.parent_of_ne h
                rw [isChild_parent_eq hch] at this
                exact hplc this
            have hclc2 : c ≠ lc := fun h => hcs (h ▸ Desc.refl lc)
            have hcgt : p < c := isChild_lt hch
            rw [siftDownW_outside fuel l2 w lc c (fun h => hcs h.1),
              siftDownW_outside fuel l2 w lc p (fun h => hplc h.1),
              hl2, gE_swapL_other (by omega : c ≠ i) hclc2,
              gE_swapL_other hpi hplc2]
            exact A p c hcw hch hdp hpi
    · next hnl =>
      by_cases hpi : p = i
      · subst hpi
        exfalso
        rcases hch with rfl | rfl <;> omega
      · exact A p c hcw hch hdp hpi

theorem heapifyUpF_length (fuel : Nat) : ∀ (l : List Int) (i : Nat),
    (heapifyUpF fuel l i).length = l.length := by
  induction fuel with
  | zero => intro l i; rfl
  | succ fuel ih =>
    intro l i
    simp only [heapifyUpF]
    split
    · split
      · rw [ih, length_swapL]
      · rfl
    · rfl

theorem heapifyUpF_multiset (fuel : Nat) : ∀ (l : List Int) (i : Nat),
    i < l.length →
    (↑(heapifyUpF fuel l i) : Multiset Int) = (↑l : Multiset Int) := by
  induction fuel with
  | zero => intro l i _; rfl
  | succ fuel ih =>
    intro l i hi
    simp only [heapifyUpF]
    split
    · next hpos =>
      have hp : getParent i < i := isChild_lt (isChild_parent hpos)
      split
      · rw [ih _ _ (by rw [length_swapL]; omega)]
        exact multiset_swapL hi (by omega)
      · rfl
    · rfl

/-- Main lemma for `HeapifyUp`: if every parent/child pair except the one
into `i` is ordered, and the children of `i` are already bounded by the
parent of `i`, then bubbling up at `i` restores the heap everywhere. -/
theorem heapifyUpF_heap (fuel : Nat) : ∀ (l : List Int) (i : Nat),
    i < fuel → i < l.length →
    (∀ p c, c < l.length → isChild p c → c ≠ i → gE l c ≤ gE l p) →
    (∀ c, c < l.length → isChild i c → 0 < i → gE l c ≤ gE l (getParent i)) →
    ∀ p c, c < l.length → isChild p c →
      gE (heapifyUpF fuel l i) c ≤ gE (heapifyUpF fuel l i) p := by
  induction fuel with
  | zero => intro l i hf; omega
  | succ fuel ih =>
    intro l i hf hi A B p c hcw hch
    simp only [heapifyUpF]
    split
    · next hpos =>
      set pi := getParent i with hpi
      have hpilt : pi < i := isChild_lt (isChild_parent hpos)
      have hchi : isChild pi i := isChild_parent hpos
      split
      · next hgo =>
        set l2 := swapL l i pi with hl2
        have hlen2 : l2.length = l.length := by rw [hl2, length_swapL]
        have hval_i : gE l2 i = gE l pi := by
          rw [hl2, gE_swapL_left hi (by omega)]
        have hval_p : gE l2 pi = gE l i := by
          rw [hl2, gE_swapL_right (by omega)]
        have hval_o : ∀ j, j ≠ i → j ≠ pi → gE l2 j = gE l j := by
          intro j h1 h2
          rw [hl2, gE_swapL_other h1 h2]
        have A2 : ∀ p' c', c' < l2.length → isChild p' c' → c' ≠ pi →
            gE l2 c' ≤ gE l2 p' := by
          intro p' c' hc'w hch' hne'
          rw [hlen2] at hc'w
          by_cases hc'i : c' = i
          · subst hc'i
            have hp'pi : p' = pi := by
              rw [hpi]
              exact (isChild_parent_eq hch').symm
            rw [hp'pi, hval_i, hval_p]
            exact le_of_lt hgo
          · rw [hval_o c' hc'i hne']
            by_cases hp'i : p' = i
            · subst hp'i
              rw [hval_i]
              exact B c' hc'w hch' hpos
            · by_cases hp'pi : p' = pi
              · subst hp'pi
                rw [hval_p]
                exact le_trans (A pi c' hc'w hch' hc'i) (le_of_lt hgo)
              · rw [hval_o p' hp'i hp'pi]
                exact A p' c' hc'w hch' hc'i
        have B2 : ∀ c', c' < l2.length → isChild pi c' → 0 < pi →
            gE l2 c' ≤ gE l2 (getParent pi) := by
          intro c' hc'w hch' hpipos
          rw [hlen2] at hc'w
          set g := getParent pi with hg
          have hgpi : g < pi := isChild_lt (isChild_parent hpipos)
          have hchg : isChild g pi := isChild_parent hpipos
          have hvg : gE l2 g = gE l g := hval_o g (by omega) (by omega)
          by_cases hc'i : c' = i
          · subst hc'i
            rw [hval_i, hvg]
            exact A g pi (by omega) hchg (by omega)
          · have hc'pi : c' ≠ pi := by
              have := isChild_lt hch'; omega
            rw [hval_o c' hc'i hc'pi, hvg]
            exact le_trans (A pi c' hc'w hch' hc'i)
              (A g pi (by omega) hchg (by omega))
        have hre := ih l2 pi (by omega) (by omega) A2 B2 p c
          (by rw [hlen2]; exact hcw) hch
        exact hre
      · next hstop =>
        by_cases hci : c = i
        · subst hci
          have hppi : p = pi := by
            rw [hpi]
            exact (isChild_parent_eq hch).symm
          rw [hppi]
          exact le_of_not_lt hstop
        · exact A p c hcw hch hci
    · next hzero =>
      have hci : c ≠ i := by
        have := isChild_lt hch; omega
      exact A p c hcw hch hci

theorem heapifyDown_length (l : List Int) (i : Nat) :
    (heapifyDown l i).length = l.length := siftDownW_length ..

theorem heapifyDown_multiset (l : List Int) (i : Nat) :
    (↑(heapifyDown l i) : Multiset Int) = (↑l : Multiset Int) :=
  siftDownW_multiset _ _ _ _ (le_refl _)

/-- If the heap ordering holds everywhere except possibly on the edges out
of `i`, and everything in the subtree of `i` is still bounded by the value
at `i`'s parent, then `HeapifyDown(i)` restores the heap ordering. -/
theorem heapifyDown_heapProp {l : List Int} {i : Nat}
    (A : ∀ p c, c < l.length → isChild p c → p ≠ i → gE l c ≤ gE l p)
    (B : ∀ k, Desc i k → k < l.length → 0 < i → gE l k ≤ gE l (getParent i)) :
    heapProp (heapifyDown l i) := by
  intro p c hcw hch
  rw [heapifyDown_length] at hcw
  by_cases hdp : Desc i p
  · exact siftDownW_heap l.length l l.length i (le_refl _) (by omega)
      (fun p' c' h1 h2 h3 h4 => A p' c' h1 h2 h4) p c hcw hch hdp
  · have hrp : gE (heapifyDown l i) p = gE l p :=
      siftDownW_outside _ _ _ _ p (fun h => hdp h.1)
    by_cases hdc : Desc i c
    · have hci : c = i := by
        by_contra hne
        exact hdp (desc_of_child hch hne hdc)
      subst hci
      have hpi : p = getParent c := (isChild_parent_eq hch).symm
      have hipos : 0 < c := by rcases hch with rfl | rfl <;> omega
      obtain ⟨k, hk1, hk2, hk3⟩ :=
        siftDownW_values l.length l l.length c (le_refl _) c (Desc.refl c) hcw
      rw [hrp]
      unfold heapifyDown
      rw [hk3, hpi]
      exact B k hk1 hk2 hipos
    · have hrc : gE (heapifyDown l i) c = gE l c :=
        siftDownW_outside _ _ _ _ c (fun h => hdc h.1)
      rw [hrp, hrc]
      exact A p c hcw hch (fun h => hdp (h ▸ Desc.refl i))

theorem heapifyLoop_length : ∀ (k : Nat) (l : List Int),
    (heapifyLoop l k).length = l.length := by
  intro k
  induction k with
  | zero => intro l; exact heapifyDown_length ..
  | succ k ih => intro l; rw [heapifyLoop, ih, heapifyDown_length]

theorem heapifyLoop_multiset : ∀ (k : Nat) (l : List Int),
    (↑(heapifyLoop l k) : Multiset Int) = (↑l : Multiset Int) := by
  intro k
  induction k with
  | zero => intro l; exact heapifyDown_multiset ..
  | succ k ih => intro l; rw [heapifyLoop, ih, heapifyDown_multiset]

theorem heapifyLoop_heapProp : ∀ (k : Nat) (l : List Int),
    (∀ p c, c < l.length → isChild p c → k < p → gE l c ≤ gE l p) →
    heapProp (heapifyLoop l k) := by
  intro k
  induction k with
  | zero =>
    intro l hinv
    exact heapifyDown_heapProp
      (fun p c h1 h2 h3 => hinv p c h1 h2 (Nat.pos_of_ne_zero h3))
      (fun k _ _ h => by omega)
  | succ k ih =>
    intro l hinv
    rw [heapifyLoop]
    refine ih (heapifyDown l (k + 1)) ?_
    intro p c hcw hch hkp
    rw [heapifyDown_length] at hcw
    by_cases hdp : Desc (k + 1) p
    · exact siftDownW_heap l.length l l.length (k + 1) (le_refl _) (by omega)
        (fun p' c' h1 h2 h3 h4 =>
          hinv p' c' h1 h2 (lt_of_le_of_ne h3.le (Ne.symm h4)))
        p c hcw hch hdp
    · have hp2 : k + 1 < p :=
        lt_of_le_of_ne hkp (fun h => hdp (h ▸ Desc.refl _))
      have hdc : ¬ Desc (k + 1) c := by
        intro hd
        have hck : c ≠ k + 1 := by
          have := isChild_lt hch; omega
        exact hdp (desc_of_child hch hck hd)
      unfold heapifyDown
      rw [siftDownW_outside _ _ _ _ p (fun h => hdp h.1),
        siftDownW_outside _ _ _ _ c (fun h => hdc h.1)]
      exact hinv p c hcw hch (by omega)

theorem heapify_length (l : List Int) : (heapify l).length = l.length := by
  rw [heapify]
  split
  · exact heapifyLoop_length ..
  · rfl

theorem heapify_multiset (l : List Int) :
    (↑(heapify l) : Multiset Int) = (↑l : Multiset Int) := by
  rw [heapify]
  split
  · exact heapifyLoop_multiset ..
  · rfl

/-- Calling `Heapify()` establishes the heap ordering from any contents. -/
theorem heapify_heapProp (l : List Int) : heapProp (heapify l) := by
  rw [heapify]
  split
  · next h =>
    refine heapifyLoop_heapProp _ l ?_
    intro p c hcw hch hp
    exfalso
    rcases hch with rfl | rfl <;> omega
  · next h =>
    intro p c hcw hch
    exfalso
    rcases hch with rfl | rfl <;> omega

/-- The boolean `IsHeap()` scan decides exactly the heap ordering. -/
theorem isHeapChk_iff (l : List Int) : isHeapChk l = true ↔ heapProp l := by
  rw [isHeapChk, List.all_eq_true]
  constructor
  · intro h p c hcw hch
    have hp : p < l.length := lt_trans (isChild_lt hch) hcw
    have := h p (List.mem_range.mpr hp)
    rw [Bool.and_eq_true, Bool.or_eq_true, Bool.or_eq_true] at this
    obtain ⟨h1, h2⟩ := this
    rcases hch with rfl | rfl
    · rcases h1 with h1 | h1
      · rw [Bool.not_eq_true', decide_eq_false_iff_not] at h1
        omega
      · rw [Bool.not_eq_true', decide_eq_false_iff_not] at h1
        exact le_of_not_lt h1
    · rcases h2 with h2 | h2
      · rw [Bool.not_eq_true', decide_eq_false_iff_not] at h2
        omega
      · rw [Bool.not_eq_true', decide_eq_false_iff_not] at h2
        exact le_of_not_lt h2
  · intro h i _
    rw [Bool.and_eq_true, Bool.or_eq_true, Bool.or_eq_true]
    constructor
    · by_cases hc : 2 * i + 1 < l.length
      · right
        rw [Bool.not_eq_true', decide_eq_false_iff_not]
        exact not_lt.mpr (h i _ hc (Or.inl rfl))
      · left
        rw [Bool.not_eq_true', decide_eq_false_iff_not]
        exact hc
    · by_cases hc : 2 * i + 2 < l.length
      · right
        rw [Bool.not_eq_true', decide_eq_false_iff_not]
        exact not_lt.mpr (h i _ hc (Or.inr rfl))
      · left
        rw [Bool.not_eq_true', decide_eq_false_iff_not]
        exact hc

/-- The `Sort` inner loop computes exactly `HeapifyDown` restricted to the
window: the two formulations pick the same child and stop at the same time. -/
theorem sortSift_eq (fuel : Nat) : ∀ (l : List Int) (hs cur : Nat),
    sortSift fuel l hs cur = siftDownW fuel l hs cur := by
  induction fuel with
  | zero => intro l hs cur; rfl
  | succ fuel ih =>
    intro l hs cur
    simp only [sortSift, siftDownW]
    split_ifs <;> first
      | rfl
      | (exact ih ..)
      | (exfalso; omega)

theorem sortLoop_length : ∀ (k : Nat) (l : List Int),
    (sortLoop l k).length = l.length := by
  intro k
  induction k with
  | zero => intro l; rfl
  | succ k ih =>
    intro l
    rw [sortLoop, ih, sortSift_eq, siftDownW_length, length_swapL]

theorem sortLoop_multiset : ∀ (k : Nat) (l : List Int), k < l.length →
    (↑(sortLoop l k) : Multiset Int) = (↑l : Multiset Int) := by
  intro k
  induction k with
  | zero => intro l _; rfl
  | succ k ih =>
    intro l hk
    rw [sortLoop, ih _ (by rw [sortSift_eq, siftDownW_length, length_swapL]; omega),
      sortSift_eq, siftDownW_multiset _ _ _ _ (by rw [length_swapL]; omega),
      multiset_swapL (by omega) hk]

theorem sortLoop_sorted : ∀ (k : Nat) (l : List Int), k < l.length →
    heapPropW (k + 1) l →
    (∀ a b, a ≤ b → k < b → b < l.length → gE l a ≤ gE l b) →
    ∀ a b, a ≤ b → b < l.length →
      gE (sortLoop l k) a ≤ gE (sortLoop l k) b := by
  intro k
  induction k with
  | zero =>
    intro l _ _ hS a b hab hbl
    rcases Nat.eq_zero_or_pos b with hb | hb
    · subst hb
      have : a = 0 := by omega
      subst this
      exact le_refl _
    · exact hS a b hab hb hbl
  | succ k ih =>
    intro l hk hheap hS a b hab hbl
    rw [sortLoop]
    set l1 := swapL l 0 (k + 1) with hl1
    have hlen1 : l1.length = l.length := by rw [hl1, length_swapL]
    have hsse : sortSift (k + 1) l1 (k + 1) 0 = siftDownW (k + 1) l1 (k + 1) 0 :=
      sortSift_eq ..
    set l2 := sortSift (k + 1) l1 (k + 1) 0 with hl2def
    have hlen2 : l2.length = l.length := by
      rw [hl2def, sortSift_eq, siftDownW_length, hlen1]
    have hout : ∀ j, k + 1 ≤ j → gE l2 j = gE l1 j := by
      intro j hj
      rw [hl2def, sortSift_eq]
      exact siftDownW_outside _ _ _ _ j (fun h => by omega)
    have hval_top : gE l2 (k + 1) = gE l 0 := by
      rw [hout (k + 1) (le_refl _), hl1, gE_swapL_right hk]
    have hval_suffix : ∀ j, k + 2 ≤ j → gE l2 j = gE l j := by
      intro j hj
      rw [hout j (by omega), hl1, gE_swapL_other (by omega) (by omega)]
    have hroot : ∀ j, j < k + 2 → gE l j ≤ gE l 0 :=
      fun j hj => heapPropW_le_root hheap j hj
    have hvals : ∀ j, j < k + 1 → ∃ m, m < k + 1 ∧ gE l2 j = gE l1 m := by
      intro j hj
      obtain ⟨m, _, hm2, hm3⟩ := siftDownW_values (k + 1) l1 (k + 1) 0
        (by omega) j (desc_zero j) hj
      exact ⟨m, hm2, by rw [hl2def, sortSift_eq]; exact hm3⟩
    have hl1val : ∀ m, m < k + 1 → gE l1 m ≤ gE l 0 := by
      intro m hm
      by_cases hm0 : m = 0
      · subst hm0
        rw [hl1, gE_swapL_left (by omega) (by omega)]
        exact hroot (k + 1) (by omega)
      · rw [hl1, gE_swapL_other hm0 (by omega)]
        exact hroot m (by omega)
    have hheap2 : heapPropW (k + 1) l2 := by
      intro p c hcw hch
      rw [hl2def, sortSift_eq]
      refine siftDownW_heap (k + 1) l1 (k + 1) 0 (by omega) (by omega)
        ?_ p c hcw hch (desc_zero p)
      intro p' c' hc'w hch' _ hne'
      have hp1 : 0 < p' := Nat.pos_of_ne_zero hne'
      have hpc := isChild_lt hch'
      rw [hl1, gE_swapL_other (by omega) (by omega),
        gE_swapL_other (by omega) (by omega)]
      exact hheap p' c' (by omega) hch'
    have hS2 : ∀ a b, a ≤ b → k < b → b < l2.length → gE l2 a ≤ gE l2 b := by
      intro a' b' hab' hkb' hbl'
      rw [hlen2] at hbl'
      by_cases hb1 : b' = k + 1
      · subst hb1
        rw [hval_top]
        by_cases ha1 : a' = k + 1
        · subst ha1
          rw [hval_top]
        · obtain ⟨m, hm, hv⟩ := hvals a' (by omega)
          rw [hv]
          exact hl1val m hm
      · have hb2 : k + 2 ≤ b' := by omega
        rw [hval_suffix b' hb2]
        by_cases ha1 : k + 2 ≤ a'
        · rw [hval_suffix a' ha1]
          exact hS a' b' hab' (by omega) hbl'
        · by_cases ha2 : a' = k + 1
          · subst ha2
            rw [hval_top]
            exact hS 0 b' (by omega) (by omega) hbl'
          · obtain ⟨m, hm, hv⟩ := hvals a' (by omega)
            rw [hv]
            by_cases hm0 : m = 0
            · subst hm0
              rw [hl1, gE_swapL_left (by omega) (by omega)]
              exact hS (k + 1) b' (by omega) (by omega) hbl'
            · rw [hl1, gE_swapL_other hm0 (by omega)]
              exact hS m b' (by omega) (by omega) hbl'
    exact ih l2 (by omega) hheap2 hS2 a b hab (by omega)

theorem sortHV_length (l : List Int) : (sortHV l).length = l.length := by
  rw [sortHV]
  split
  · rw [sortLoop_length, heapify_length]
  · rfl

theorem sortHV_multiset (l : List Int) :
    (↑(sortHV l) : Multiset Int) = (↑l : Multiset Int) := by
  rw [sortHV]
  split
  · next h =>
    rw [sortLoop_multiset _ _ (by rw [heapify_length]; omega), heapify_multiset]
  · rfl

/-- After `Sort()` the live elements are pairwise ordered by index. -/
theorem sortHV_sorted (l : List Int) :
    ∀ a b, a ≤ b → b < l.length → gE (sortHV l) a ≤ gE (sortHV l) b := by
  intro a b hab hbl
  rw [sortHV]
  split
  · next h =>
    have hlh : (heapify l).length = l.length := heapify_length l
    refine sortLoop_sorted (l.length - 1) (heapify l) (by omega) ?_ ?_ a b hab
      (by omega)
    · have := heapify_heapProp l
      intro p c hcw hch
      exact this p c (by omega) hch
    · intro a' b' _ h1 h2
      exfalso
      omega
  · next h =>
    have hab2 : a = b := by omega
    rw [hab2]

theorem gE_take {l : List Int} {m j : Nat} (h : j < m) :
    gE (l.take m) j = gE l j := by
  by_cases hj : j < l.length
  · have hj2 : j < (l.take m).length := by
      rw [List.length_take]
      omega
    rw [gE, List.getD_eq_getElem _ 0 hj2, gE, List.getD_eq_getElem _ 0 hj]
    exact List.getElem_take ..
  · rw [gE_of_ge (le_of_not_lt hj), gE_of_ge]
    rw [List.length_take]
    omega

theorem removeTipL_length (l : List Int) :
    (removeTipL l).length = l.length - 1 := by
  rw [removeTipL, heapifyDown_length, List.length_take, List.length_set]
  omega

theorem removeTipL_heapProp {l : List Int} (hh : heapProp l) :
    heapProp (removeTipL l) := by
  rw [removeTipL]
  refine heapifyDown_heapProp ?_ (fun k _ _ h => by omega)
  intro p c hcw hch hp0
  rw [List.length_take, List.length_set] at hcw
  have hp1 : 0 < p := Nat.pos_of_ne_zero hp0
  have hpc := isChild_lt hch
  rw [gE_take (by omega), gE_take (by omega), gE_set_ne _ (by omega),
    gE_set_ne _ (by omega)]
  exact hh p c (by omega) hch

theorem removeTipL_multiset {l : List Int} (h : 1 ≤ l.length) :
    gE l 0 ::ₘ (↑(removeTipL l) : Multiset Int) = (↑l : Multiset Int) := by
  rw [removeTipL, heapifyDown_multiset]
  obtain ⟨a, t, rfl⟩ : ∃ a t, l = a :: t := by
    cases l with
    | nil => cases h
    | cons a t => exact ⟨a, t, rfl⟩
  rcases List.eq_nil_or_concat t with rfl | ⟨u, y, rfl⟩
  · simp [gE]
  · simp only [List.concat_eq_append] at h ⊢
    have hlen : (a :: (u ++ [y])).length - 1 = u.length + 1 := by
      simp
    have hx : gE (a :: (u ++ [y])) ((a :: (u ++ [y])).length - 1) = y := by
      rw [hlen, gE, List.getD_cons_succ, List.getD_eq_getElem _ 0 (by simp)]
      simp
    rw [hx]
    show gE (a :: (u ++ [y])) 0 ::ₘ
      ↑((y :: (u ++ [y])).take ((a :: (u ++ [y])).length - 1)) = _
    rw [hlen, List.take_cons (by omega)]
    have : (u ++ [y]).take (u.length + 1 - 1) = u := by
      rw [Nat.add_sub_cancel, List.take_left]
    rw [this]
    have hg0 : gE (a :: (u ++ [y])) 0 = a := List.getD_cons_zero
    rw [hg0, Multiset.cons_coe]
    refine Multiset.coe_eq_coe.mpr (List.Perm.cons a ?_)
    exact (List.perm_append_singleton y u).symm

theorem extractL_spec (fuel : Nat) : ∀ l : List Int, l.length ≤ fuel →
    heapProp l →
    List.Sorted (· ≥ ·) (extractL fuel l) ∧
    (↑(extractL fuel l) : Multiset Int) = (↑l : Multiset Int) := by
  induction fuel with
  | zero =>
    intro l hl _
    have : l = [] := List.eq_nil_of_length_eq_zero (by omega)
    subst this
    exact ⟨List.sorted_nil, rfl⟩
  | succ fuel ih =>
    intro l hl hh
    rw [extractL]
    split
    · next h0 =>
      have : l = [] := List.eq_nil_of_length_eq_zero h0
      subst this
      exact ⟨List.sorted_nil, rfl⟩
    · next h0 =>
      split
      · next h1 =>
        have hext : extractL fuel [] = [] := by
          cases fuel <;> rfl
        rw [hext]
        obtain ⟨a, rfl⟩ : ∃ a, l = [a] := by
          cases l with
          | nil => cases h0 rfl
          | cons a t =>
            cases t with
            | nil => exact ⟨a, rfl⟩
            | cons b u => simp at h1
        exact ⟨List.sorted_singleton _, by simp [gE]⟩
      · next h1 =>
        have hlen : 1 ≤ l.length := by omega
        have hrl : (removeTipL l).length = l.length - 1 := removeTipL_length l
        obtain ⟨hs, hm⟩ := ih (removeTipL l) (by omega) (removeTipL_heapProp hh)
        have hmul : gE l 0 ::ₘ (↑(removeTipL l) : Multiset Int) = ↑l :=
          removeTipL_multiset hlen
        refine ⟨?_, by rw [← Multiset.cons_coe, hm]; exact hmul⟩
        rw [List.sorted_cons]
        refine ⟨?_, hs⟩
        intro y hy
        have hy2 : y ∈ (↑(removeTipL l) : Multiset Int) := by
          rw [← hm]
          exact Multiset.mem_coe.mpr hy
        have hy3 : y ∈ l := by
          have : y ∈ (↑l : Multiset Int) := by
            rw [← hmul]
            exact Multiset.mem_cons.mpr (Or.inr hy2)
          exact Multiset.mem_coe.mp this
        obtain ⟨n, hn, hv⟩ := List.mem_iff_getElem.mp hy3
        have : gE l n ≤ gE l 0 := heapPropW_le_root hh n hn
        rw [gE_of_lt hn, hv] at this
        exact this

theorem gE_append_lt {l : List Int} (l' : List Int) {j : Nat}
    (h : j < l.length) : gE (l ++ l') j = gE l j :=
  List.getD_append l l' 0 j h

theorem set_gE_self {l : List Int} {i : Nat} (h : i < l.length) :
    l.set i (gE l i) = l := by
  apply List.ext_getElem (by simp)
  intro j h1 h2
  by_cases hji : j = i
  · subst hji
    rw [List.getElem_set_self]
    exact gE_of_lt h2
  · exact List.getElem_set_ne (fun h => hji h.symm) ..

theorem heapProp_short {l : List Int} (h : l.length ≤ 1) : heapProp l := by
  intro p c hcw hch
  have := isChild_lt hch
  omega

theorem heapifyUp_length (l : List Int) (i : Nat) :
    (heapifyUp l i).length = l.length := heapifyUpF_length ..

theorem heapifyUp_multiset {l : List Int} {i : Nat} (h : i < l.length) :
    (↑(heapifyUp l i) : Multiset Int) = (↑l : Multiset Int) :=
  heapifyUpF_multiset _ _ _ h

/-- Operation `Insert` preserves the heap ordering: the appended element has no
children, and bubbling up restores the one possibly-broken edge. -/
theorem heapProp_insertL {l : List Int} (hh : heapProp l) (v : Int) :
    heapProp (heapifyUp (l ++ [v]) l.length) := by
  intro p c hcw hch
  rw [heapifyUp_length] at hcw
  refine heapifyUpF_heap (l.length + 1) (l ++ [v]) l.length (by omega)
    (by simp) ?_ ?_ p c (by simpa using hcw) hch
  · intro p' c' hc'w hch' hne'
    simp only [List.length_append, List.length_singleton] at hc'w
    have hc'lt : c' < l.length := by omega
    have hp'lt : p' < l.length := lt_trans (isChild_lt hch') hc'lt
    rw [gE_append_lt _ hc'lt, gE_append_lt _ hp'lt]
    exact hh p' c' hc'lt hch'
  · intro c' hc'w hch' _
    simp only [List.length_append, List.length_singleton] at hc'w
    exfalso
    rcases hch' with rfl | rfl <;> omega

theorem multiset_insertL {l : List Int} (v : Int) :
    (↑(heapifyUp (l ++ [v]) l.length) : Multiset Int) = v ::ₘ ↑l := by
  rw [heapifyUp_multiset (by simp), ← Multiset.coe_add]
  change _ = v ::ₘ (↑l : Multiset Int)
  rw [← Multiset.singleton_add, add_comm]
  rfl

/-- The shared `Change` tail preserves the heap ordering. -/
theorem heapProp_changeAt {l : List Int} (hh : heapProp l) {idx : Nat}
    (hidx : idx < l.length) (v : Int) : heapProp (changeAt idx v l) := by
  rw [changeAt]
  set oldD := gE l idx with holdD
  set l2 := l.set idx v with hl2
  have hlen2 : l2.length = l.length := by rw [hl2, List.length_set]
  have hval_idx : gE l2 idx = v := by rw [hl2]; exact gE_set_eq _ hidx
  have hval_o : ∀ j, j ≠ idx → gE l2 j = gE l j := by
    intro j hj
    rw [hl2]
    exact gE_set_ne _ (fun h => hj h.symm)
  split
  · next hup =>
    intro p c hcw hch
    rw [heapifyUp_length, hlen2] at hcw
    refine heapifyUpF_heap (idx + 1) l2 idx (by omega) (by omega) ?_ ?_ p c
      (by omega) hch
    · intro p' c' hc'w hch' hne'
      rw [hlen2] at hc'w
      rw [hval_o c' hne']
      by_cases hp' : p' = idx
      · subst hp'
        rw [hval_idx]
        exact le_trans (hh p' c' hc'w hch') (le_of_lt hup)
      · rw [hval_o p' hp']
        exact hh p' c' hc'w hch'
    · intro c' hc'w hch' hpos
      rw [hlen2] at hc'w
      have hgp : getParent idx < idx := isChild_lt (isChild_parent hpos)
      have hc'ne : c' ≠ idx := by have := isChild_lt hch'; omega
      rw [hval_o c' hc'ne, hval_o _ (by omega)]
      exact le_trans (hh idx c' hc'w hch')
        (hh (getParent idx) idx hidx (isChild_parent hpos))
  · split
    · next hdown =>
      refine heapifyDown_heapProp ?_ ?_
      · intro p c hcw hch hne
        rw [hlen2] at hcw
        rw [hval_o p hne]
        by_cases hc : c = idx
        · subst hc
          rw [hval_idx]
          have hp : p = getParent c := (isChild_parent_eq hch).symm
          exact le_trans (le_of_lt hdown) (hh p c hcw hch)
        · rw [hval_o c hc]
          exact hh p c hcw hch
      · intro k hdk hkw hpos
        rw [hlen2] at hkw
        have hgp : getParent idx < idx := isChild_lt (isChild_parent hpos)
        rw [hval_o (getParent idx) (by omega)]
        by_cases hk : k = idx
        · rw [hk, hval_idx]
          exact le_trans (le_of_lt hdown)
            (hh (getParent idx) idx hidx (isChild_parent hpos))
        · rw [hval_o k hk]
          refine le_trans (desc_le_root (w := l.length) ?_ k hdk hkw)
            (hh (getParent idx) idx hidx (isChild_parent hpos))
          intro p' c' hc' hch' _
          exact hh p' c' hc' hch'
    · next heq1 =>
      next heq2 =>
        have hv : v = oldD := le_antisymm (le_of_not_lt heq2) (le_of_not_lt heq1)
        rw [hl2, hv, holdD, set_gE_self hidx]
        exact hh

theorem changeAt_multiset {l : List Int} {idx : Nat} (hidx : idx < l.length)
    (v : Int) :
    (↑(changeAt idx v l) : Multiset Int) + {gE l idx}
      = (↑l : Multiset Int) + {v} := by
  rw [changeAt]
  have hset := multiset_set v (l := l) (i := idx) hidx
  split
  · rw [heapifyUp_multiset (by rw [List.length_set]; omega)]
    exact hset
  · split
    · rw [heapifyDown_multiset]
      exact hset
    · exact hset

theorem shrink_elems (s : PQState) : (shrinkCapacity s).elems = s.elems := by
  rw [shrinkCapacity]
  split <;> rfl

theorem ensure_elems (minCap : Nat) (s : PQState) :
    (ensureCapacity minCap s).elems = s.elems := by
  rw [ensureCapacity]
  split <;> rfl

theorem findFirst_le (v : Int) : ∀ l : List Int, findFirst v l ≤ l.length := by
  intro l
  induction l with
  | nil => exact le_refl _
  | cons x xs ih =>
    rw [findFirst]
    split
    · simp
    · simpa using ih

theorem findFirst_eq_length_iff (v : Int) : ∀ l : List Int,
    findFirst v l = l.length ↔ ∀ x ∈ l, x ≠ v := by
  intro l
  induction l with
  | nil => simp [findFirst]
  | cons x xs ih =>
    rw [findFirst]
    split
    · next hx =>
      subst hx
      simp
    · next hx =>
      simp only [List.length_cons, Nat.add_right_cancel_iff, ih,
        List.mem_cons]
      constructor
      · intro h y hy
        rcases hy with rfl | hy
        · exact hx
        · exact h y hy
      · intro h y hy
        exact h y (Or.inr hy)

/-- Every operation of the invariant-preservation property keeps the live
prefix heap-ordered. -/
theorem applyOp_heapProp {s : PQState} (hh : heapProp s.elems) (op : PQOp) :
    heapProp (applyOp s op).elems := by
  cases op with
  | insert v =>
    show heapProp (pqInsert v s).elems
    rw [pqInsert]
    have he := ensure_elems (s.elems.length + 1) s
    simp only [he]
    exact heapProp_insertL hh v
  | removeTip =>
    show heapProp (pqRemoveTip s).2.elems
    rw [pqRemoveTip]
    split
    · exact hh
    · split
      · rw [shrink_elems]
        exact heapProp_short (by simp)
      · rw [shrink_elems]
        exact removeTipL_heapProp hh
  | tipNRemove =>
    show heapProp (pqTipNRemove s).2.elems
    rw [pqTipNRemove]
    split
    · exact hh
    · split
      · rw [shrink_elems]
        exact heapProp_short (by simp)
      · rw [shrink_elems]
        exact removeTipL_heapProp hh
  | changeValue o n =>
    show heapProp (pqChangeValue o n s).2.elems
    rw [pqChangeValue]
    split
    · exact hh
    · next hne =>
      have := findFirst_le o s.elems
      exact heapProp_changeAt hh (by omega) n
  | changeIndex i v =>
    show heapProp (pqChangeIndex i v s).2.elems
    rw [pqChangeIndex]
    split
    · exact hh
    · next hlt =>
      exact heapProp_changeAt hh (by omega) v
  | heapifyCall =>
    show heapProp (pqHeapify s).elems
    exact heapify_heapProp s.elems

theorem applyOps_heapProp {s : PQState} (hh : heapProp s.elems)
    (ops : List PQOp) : heapProp (applyOps ops s).elems := by
  induction ops generalizing s with
  | nil => exact hh
  | cons op ops ih => exact ih (applyOp_heapProp hh op)

theorem pqInsert_elems_multiset (v : Int) (s : PQState) :
    (↑(pqInsert v s).elems : Multiset Int) = v ::ₘ ↑s.elems := by
  show (↑(heapifyUp ((ensureCapacity (s.elems.length + 1) s).elems ++ [v])
    (ensureCapacity (s.elems.length + 1) s).elems.length) : Multiset Int) = _
  rw [ensure_elems]
  exact multiset_insertL v

theorem pqInsert_elems_heapProp {s : PQState} (hh : heapProp s.elems)
    (v : Int) : heapProp (pqInsert v s).elems := by
  show heapProp (heapifyUp ((ensureCapacity (s.elems.length + 1) s).elems ++ [v])
    (ensureCapacity (s.elems.length + 1) s).elems.length)
  rw [ensure_elems]
  exact heapProp_insertL hh v

theorem pqInsertAll_multiset (l : List Int) :
    (↑(pqInsertAll l).elems : Multiset Int) = (↑l : Multiset Int) := by
  suffices h : ∀ (l : List Int) (s : PQState),
      (↑(l.foldl (fun s v => pqInsert v s) s).elems : Multiset Int)
        = ↑s.elems + ↑l by
    have := h l pqDefault
    rw [pqInsertAll, this]
    rfl
  intro l
  induction l with
  | nil => intro s; simp
  | cons v t ih =>
    intro s
    rw [List.foldl_cons, ih, pqInsert_elems_multiset, ← Multiset.cons_coe,
      ← Multiset.singleton_add, ← Multiset.singleton_add, ← add_assoc,
      add_comm (↑s.elems : Multiset Int) {v}]

theorem pqInsertAll_heapProp (l : List Int) : heapProp (pqInsertAll l).elems := by
  suffices h : ∀ (l : List Int) (s : PQState), heapProp s.elems →
      heapProp (l.foldl (fun s v => pqInsert v s) s).elems by
    exact h l pqDefault (heapProp_short (by simp [pqDefault]))
  intro l
  induction l with
  | nil => intro s hs; exact hs
  | cons v t ih =>
    intro s hs
    exact ih _ (pqInsert_elems_heapProp hs v)

theorem pqExtract_eq_extractL (fuel : Nat) : ∀ s : PQState,
    pqExtract fuel s = extractL fuel s.elems := by
  induction fuel with
  | zero => intro s; rfl
  | succ fuel ih =>
    intro s
    by_cases h0 : s.elems.length = 0
    · simp [pqExtract, extractL, pqTipNRemove, h0]
    · by_cases h1 : s.elems.length = 1
      · simp [pqExtract, extractL, pqTipNRemove, h0, h1, ih, shrink_elems]
      · simp [pqExtract, extractL, pqTipNRemove, h0, h1, ih, shrink_elems]

theorem pqExtractAll_spec {s : PQState} (hh : heapProp s.elems) :
    List.Sorted (· ≥ ·) (pqExtractAll s) ∧
    (↑(pqExtractAll s) : Multiset Int) = (↑s.elems : Multiset Int) := by
  rw [pqExtractAll, pqExtract_eq_extractL]
  exact extractL_spec _ _ (le_refl _) hh

/-- The doubling loop computes the first member of the doubling sequence
that reaches `minCap` (with enough fuel, which `fuel = minCap` provides). -/
theorem growCapF_spec : ∀ (fuel minCap c : Nat), 0 < c → minCap - c ≤ fuel →
    ∃ k, growCapF fuel minCap c = c * 2 ^ k ∧ minCap ≤ c * 2 ^ k ∧
      ∀ j, j < k → c * 2 ^ j < minCap := by
  intro fuel
  induction fuel with
  | zero =>
    intro minCap c hc hf
    refine ⟨0, by rw [growCapF]; ring, by simp; omega, by omega⟩
  | succ fuel ih =>
    intro minCap c hc hf
    rw [growCapF]
    split
    · next hlt =>
      obtain ⟨k, h1, h2, h3⟩ := ih minCap (2 * c) (by omega) (by omega)
      refine ⟨k + 1, ?_, ?_, ?_⟩
      · rw [h1]; ring
      · calc minCap ≤ 2 * c * 2 ^ k := h2
        _ = c * 2 ^ (k + 1) := by ring
      · intro j hj
        cases j with
        | zero => simpa using hlt
        | succ j =>
          have := h3 j (by omega)
          calc c * 2 ^ (j + 1) = 2 * c * 2 ^ j := by ring
          _ < minCap := this
    · next hge =>
      exact ⟨0, by ring, by simp; omega, by omega⟩

/-- C1: starting from any valid max-heap state of the priority queue, after
every step of any sequence of `Insert`, `RemoveTip`, `TipNRemove`, `Change`
(value-based or index-based) and `Heapify` calls (never `Sort`), `IsHeap()`
returns `true`.  The sequence `ops` is arbitrary, so every prefix of a given
call sequence is covered, i.e. the invariant holds after every step. -/
theorem C1_invariant_preservation (s : PQState) (ops : List PQOp)
    (hh : isHeapChk s.elems = true) :
    isHeapChk (applyOps ops s).elems = true :=
  (isHeapChk_iff _).mpr (applyOps_heapProp ((isHeapChk_iff _).mp hh) ops)

theorem C1_witness :
    isHeapChk (applyOps [PQOp.insert 5, PQOp.removeTip,
      PQOp.changeValue 1 10, PQOp.tipNRemove, PQOp.heapifyCall,
      PQOp.changeIndex 0 2, PQOp.insert 4] (pqOfList [3, 1, 2])).elems
      = true :=
  C1_invariant_preservation _ _ (by decide)

/-- C2: a priority queue built from the multiset `M` — by bulk construction
or by any sequence of `Insert` calls (any enumeration `L` of `M`) — yields,
under repeated `TipNRemove()` until empty, exactly the elements of `M`
sorted in non-increasing order (the sorted sequence is unique among
permutations of `M`); in particular, built from `[10, 5, 15, 2, 8, 20, 3]`
it yields `20, 15, 10, 8, 5, 3, 2` in that exact order. -/
theorem C2_extraction_order (M L : List Int) (hperm : L.Perm M) :
    (List.Sorted (· ≥ ·) (pqExtractAll (pqOfList M)) ∧
      (pqExtractAll (pqOfList M)).Perm M) ∧
    (List.Sorted (· ≥ ·) (pqExtractAll (pqInsertAll L)) ∧
      (pqExtractAll (pqInsertAll L)).Perm M) ∧
    (∀ out : List Int, List.Sorted (· ≥ ·) out → out.Perm M →
      out = pqExtractAll (pqOfList M)) ∧
    pqExtractAll (pqOfList [10, 5, 15, 2, 8, 20, 3])
      = [20, 15, 10, 8, 5, 3, 2] := by
  have hbulk := pqExtractAll_spec (s := pqOfList M) (heapify_heapProp M)
  have hbulkm : (↑(pqExtractAll (pqOfList M)) : Multiset Int) = ↑M := by
    rw [hbulk.2]
    exact heapify_multiset M
  have hbulkp : (pqExtractAll (pqOfList M)).Perm M :=
    Multiset.coe_eq_coe.mp hbulkm
  have hins := pqExtractAll_spec (s := pqInsertAll L) (pqInsertAll_heapProp L)
  have hinsm : (↑(pqExtractAll (pqInsertAll L)) : Multiset Int) = ↑L := by
    rw [hins.2]
    exact pqInsertAll_multiset L
  refine ⟨⟨hbulk.1, hbulkp⟩, ⟨hins.1, ?_⟩, ?_, by decide⟩
  · exact (Multiset.coe_eq_coe.mp hinsm).trans hperm
  · intro out hs hp
    haveI : IsAntisymm Int (· ≥ ·) := ⟨fun a b h1 h2 => le_antisymm h2 h1⟩
    exact List.eq_of_perm_of_sorted (hp.trans hbulkp.symm) hs hbulk.1

theorem C2_witness :
    List.Sorted (· ≥ ·) (pqExtractAll (pqInsertAll [1, 3, 2])) ∧
    (pqExtractAll (pqInsertAll [1, 3, 2])).Perm [3, 2, 1] :=
  (C2_extraction_order [3, 2, 1] [1, 3, 2] (by decide)).2.1

/-- C3 (code bug): after copy construction `capacity` (8) exceeds the
actual allocation (`size = 3` slots, from `Vector`'s copy constructor).
`Insert` then calls `EnsureCapacity(size + 1) = EnsureCapacity(4)`, which is
a no-op because `capacity = 8 ≥ 4`, and writes at index `size = 3`, which is
NOT inside the 3-slot allocation: the claimed buffer-room invariant fails. -/
theorem C3_copy_breaks_buffer_room :
    c3Copied.capacity = 8 ∧ c3Copied.elems.length = 3 ∧ c3Copied.alloc = 3 ∧
    ensureCapacity (c3Copied.elems.length + 1) c3Copied = c3Copied ∧
    ¬ (c3Copied.elems.length
        < (ensureCapacity (c3Copied.elems.length + 1) c3Copied).alloc) := by
  decide

/-- C4 (code bug): move construction does leave the source empty with
`size = 0`, `capacity = 0`; but move assignment swaps buffers, so the
moved-from source takes over the target's former element `7` (`size = 1`),
contradicting the claimed empty state (only `capacity` is zeroed). -/
theorem C4_moved_from_not_empty :
    (pqMoveCtor (pqInsert 7 pqDefault)).2 = pqDefault ∧
    (pqMoveAssign (pqInsert 7 pqDefault) pqDefault).2.elems = [7] ∧
    (pqMoveAssign (pqInsert 7 pqDefault) pqDefault).2.capacity = 0 := by
  decide

/-- C5 (code bug): on the source of a move assignment into a formerly
non-empty target, `capacity` (0) drops below `size` (1), violating the
claimed `capacity ≥ size` after every operation. -/
theorem C5_capacity_lt_size_after_move_assign :
    (pqMoveAssign (pqInsert 7 pqDefault) pqDefault).2.capacity
      < (pqMoveAssign (pqInsert 7 pqDefault) pqDefault).2.elems.length := by
  decide

/-- C6 counterexample: on the two-element buffer `[5, 5]` (size 2 > 1),
`Sort()` leaves `[5, 5]` and `IsHeap()` still returns `true`, refuting
"for size > 1, IsHeap() returns false after Sort()". -/
theorem C6_counterexample :
    1 < ([5, 5] : List Int).length ∧ sortHV [5, 5] = [5, 5] ∧
    isHeapChk (sortHV [5, 5]) = true := by
  decide

/-- C6 (amended): after `Sort()` the first `size` elements are in
non-decreasing order; for `size ≤ 1`, `Sort()` is a no-op and `IsHeap()`
remains true; for `size > 1`, `IsHeap()` returns false after `Sort()`
unless all live elements are equal, in which case it remains true. -/
theorem C6_sort_correct (l : List Int) :
    List.Sorted (· ≤ ·) (sortHV l) ∧
    (l.length ≤ 1 → sortHV l = l ∧ isHeapChk (sortHV l) = true) ∧
    (1 < l.length →
      ((∃ a ∈ l, ∃ b ∈ l, a ≠ b) → isHeapChk (sortHV l) = false) ∧
      ((∀ a ∈ l, ∀ b ∈ l, a = b) → isHeapChk (sortHV l) = true)) := by
  have hmem : ∀ x : Int, x ∈ sortHV l ↔ x ∈ l := by
    intro x
    rw [← Multiset.mem_coe, sortHV_multiset, Multiset.mem_coe]
  have hsorted : List.Sorted (· ≤ ·) (sortHV l) := by
    rw [List.Sorted, List.pairwise_iff_getElem]
    intro i j hi hj hij
    have hjl : j < l.length := by
      rw [sortHV_length] at hj
      exact hj
    have := sortHV_sorted l i j (le_of_lt hij) hjl
    rwa [gE_of_lt hi, gE_of_lt hj] at this
  refine ⟨hsorted, ?_, ?_⟩
  · intro hlen
    have hid : sortHV l = l := by
      rw [sortHV, if_neg (by omega)]
    refine ⟨hid, ?_⟩
    rw [hid]
    exact (isHeapChk_iff l).mpr (heapProp_short hlen)
  · intro hlen
    constructor
    · intro ⟨a, ha, b, hb, hab⟩
      by_contra hfalse
      have htrue : isHeapChk (sortHV l) = true := by
        cases hchk : isHeapChk (sortHV l) with
        | false => exact absurd hchk hfalse
        | true => rfl
      have hheap : heapProp (sortHV l) := (isHeapChk_iff _).mp htrue
      have hconst : ∀ x : Int, x ∈ sortHV l → x = gE (sortHV l) 0 := by
        intro x hx
        obtain ⟨n, hn, hv⟩ := List.mem_iff_getElem.mp hx
        have h1 : gE (sortHV l) n ≤ gE (sortHV l) 0 := heapPropW_le_root hheap n hn
        have h2 : gE (sortHV l) 0 ≤ gE (sortHV l) n := by
          have hnl : n < l.length := by rwa [sortHV_length] at hn
          exact sortHV_sorted l 0 n (Nat.zero_le n) hnl
        rw [gE_of_lt hn, hv] at h1 h2
        exact le_antisymm h1 h2
      have ha2 := hconst a ((hmem a).mpr ha)
      have hb2 := hconst b ((hmem b).mpr hb)
      exact hab (ha2.trans hb2.symm)
    · intro hall
      refine (isHeapChk_iff _).mpr ?_
      intro p c hcw hch
      have hpw : p < (sortHV l).length := lt_trans (isChild_lt hch) hcw
      have hcm : gE (sortHV l) c ∈ l := by
        rw [gE_of_lt hcw, ← hmem]
        exact List.getElem_mem hcw
      have hpm : gE (sortHV l) p ∈ l := by
        rw [gE_of_lt hpw, ← hmem]
        exact List.getElem_mem hpw
      rw [hall _ hcm _ hpm]

theorem C6_witness :
    1 < ([2, 1, 1] : List Int).length ∧
    isHeapChk (sortHV [2, 1, 1]) = false :=
  ⟨by decide, ((C6_sort_correct [2, 1, 1]).2.2 (by decide)).1
    ⟨2, by decide, 1, by decide, by decide⟩⟩

/-- C7: `EnsureCapacity(min)` is a no-op when `capacity ≥ min`, and
otherwise keeps the live elements (in order) and sets the capacity to the
first value of the sequence `max(capacity, 1)`, doubled repeatedly, that is
`≥ min`; `ShrinkCapacity()` is a no-op unless `capacity > 4` and
`size ≤ capacity / 4`, and otherwise keeps the live elements and sets the
capacity to `max(capacity / 2, size)`. -/
theorem C7_capacity_policy (s : PQState) (minCap : Nat) :
    (minCap ≤ s.capacity → ensureCapacity minCap s = s) ∧
    (s.capacity < minCap →
      (ensureCapacity minCap s).elems = s.elems ∧
      ∃ k, (ensureCapacity minCap s).capacity = max s.capacity 1 * 2 ^ k ∧
        minCap ≤ max s.capacity 1 * 2 ^ k ∧
        ∀ j, j < k → max s.capacity 1 * 2 ^ j < minCap) ∧
    (¬ (4 < s.capacity ∧ s.elems.length ≤ s.capacity / 4) →
      shrinkCapacity s = s) ∧
    (4 < s.capacity ∧ s.elems.length ≤ s.capacity / 4 →
      (shrinkCapacity s).elems = s.elems ∧
      (shrinkCapacity s).capacity = max (s.capacity / 2) s.elems.length) := by
  refine ⟨?_, ?_, ?_, ?_⟩
  · intro h
    rw [ensureCapacity, if_neg (by omega)]
  · intro h
    rw [ensureCapacity, if_pos h]
    refine ⟨rfl, ?_⟩
    have hbase : (if s.capacity = 0 then 1 else s.capacity)
        = max s.capacity 1 := by
      split <;> omega
    have hpos : 0 < (if s.capacity = 0 then 1 else s.capacity) := by
      split <;> omega
    obtain ⟨k, h1, h2, h3⟩ := growCapF_spec minCap minCap _ hpos (by omega)
    refine ⟨k, ?_, ?_, ?_⟩
    · show growCap minCap (if s.capacity = 0 then 1 else s.capacity) = _
      rw [growCap, h1, hbase]
    · rw [← hbase]
      exact h2
    · intro j hj
      rw [← hbase]
      exact h3 j hj
  · intro h
    rw [shrinkCapacity, if_neg h]
  · intro h
    rw [shrinkCapacity, if_pos h]
    refine ⟨rfl, ?_⟩
    show (if s.capacity / 2 < s.elems.length
      then s.elems.length else s.capacity / 2) = _
    split <;> omega

theorem C7_witness :
    (ensureCapacity 9 (⟨[1, 2, 3], 4, 4⟩ : PQState)).elems = [1, 2, 3] ∧
    (shrinkCapacity (⟨[1, 2], 12, 12⟩ : PQState)).capacity = max 6 2 :=
  ⟨((C7_capacity_policy ⟨[1, 2, 3], 4, 4⟩ 9).2.1 (by decide)).1,
   ((C7_capacity_policy ⟨[1, 2], 12, 12⟩ 9).2.2.2 (by decide)).2⟩

/-- C8: `Tip`, `RemoveTip`, `TipNRemove` fail with `EmptyCollection`
exactly when `size = 0`; value-based `Change` fails with `NotFound` exactly
when no element equals `oldValue`; index-based `Change` fails with
`IndexOutOfRange` exactly when `index ≥ size`; and every failing operation
returns the observable state (elements, size, capacity) unchanged. -/
theorem C8_error_contract (s : PQState) (oldV newV : Int) (idx : Nat) :
    (s.elems.length = 0 →
      pqTip s = .error .EmptyCollection ∧
      pqRemoveTip s = (.error .EmptyCollection, s) ∧
      pqTipNRemove s = (.error .EmptyCollection, s)) ∧
    (s.elems.length ≠ 0 →
      (∃ v, pqTip s = .ok v) ∧ (pqRemoveTip s).1 = .ok () ∧
      (∃ v, (pqTipNRemove s).1 = .ok v)) ∧
    ((∀ x ∈ s.elems, x ≠ oldV) →
      pqChangeValue oldV newV s = (.error .NotFound, s)) ∧
    (oldV ∈ s.elems → (pqChangeValue oldV newV s).1 = .ok ()) ∧
    (s.elems.length ≤ idx →
      pqChangeIndex idx newV s = (.error .IndexOutOfRange, s)) ∧
    (idx < s.elems.length → (pqChangeIndex idx newV s).1 = .ok ()) := by
  refine ⟨?_, ?_, ?_, ?_, ?_, ?_⟩
  · intro h
    refine ⟨?_, ?_, ?_⟩
    · rw [pqTip, if_pos h]
    · rw [pqRemoveTip, if_pos h]
    · rw [pqTipNRemove, if_pos h]
  · intro h
    refine ⟨⟨gE s.elems 0, ?_⟩, ?_, ⟨gE s.elems 0, ?_⟩⟩
    · rw [pqTip, if_neg h]
    · rw [pqRemoveTip, if_neg h]
      split <;> rfl
    · rw [pqTipNRemove, if_neg h]
      split <;> rfl
  · intro h
    rw [pqChangeValue]
    simp only [if_pos ((findFirst_eq_length_iff oldV s.elems).mpr h)]
  · intro h
    rw [pqChangeValue]
    have hne : findFirst oldV s.elems ≠ s.elems.length := by
      intro heq
      exact ((findFirst_eq_length_iff oldV s.elems).mp heq) oldV h rfl
    simp only [if_neg hne]
  · intro h
    rw [pqChangeIndex, if_pos h]
  · intro h
    rw [pqChangeIndex, if_neg (by omega)]

theorem C8_witness :
    pqChangeValue 999 1 (⟨[3, 1, 2], 3, 3⟩ : PQState)
      = (.error .NotFound, (⟨[3, 1, 2], 3, 3⟩ : PQState)) ∧
    pqTip (⟨[], 0, 0⟩ : PQState) = .error .EmptyCollection ∧
    pqChangeIndex 10 0 (⟨[3, 1, 2], 3, 3⟩ : PQState)
      = (.error .IndexOutOfRange, (⟨[3, 1, 2], 3, 3⟩ : PQState)) :=
  ⟨(C8_error_contract ⟨[3, 1, 2], 3, 3⟩ 999 1 10).2.2.1 (by decide),
   ((C8_error_contract ⟨[], 0, 0⟩ 999 1 10).1 (by decide)).1,
   (C8_error_contract ⟨[3, 1, 2], 3, 3⟩ 999 1 10).2.2.2.2.1 (by decide)⟩

/-- C9 (code bug): `PQHeap(const ulong c)` delegates to `Vector(c)`, which
creates `c` value-initialized live elements, so the queue is NOT empty:
`size = c` (= 3 here), and `Tip()` succeeds (returning the default value 0)
instead of failing with `EmptyCollection`; `capacity = c` does hold. -/
theorem C9_capacity_ctor_not_empty :
    (pqOfCapacity 3).elems.length = 3 ∧ (pqOfCapacity 3).capacity = 3 ∧
    pqTip (pqOfCapacity 3) = .ok 0 :=
  ⟨rfl, rfl, rfl⟩

/-- C10: two priority queues with equal sizes and pairwise-equal elements
compare equal (`operator==` true, `operator!=` false) whatever their
`capacity` (and allocation) fields are: capacity is not observable through
structural equality. -/
theorem C10_equality_ignores_capacity (e1 e2 : List Int)
    (c1 c2 a1 a2 : Nat) (hlen : e1.length = e2.length)
    (helem : ∀ i, i < e1.length → gE e1 i = gE e2 i) :
    pqEqB ⟨e1, c1, a1⟩ ⟨e2, c2, a2⟩ = true ∧
    pqNeB ⟨e1, c1, a1⟩ ⟨e2, c2, a2⟩ = false := by
  have heq : pqEqB ⟨e1, c1, a1⟩ ⟨e2, c2, a2⟩ = true := by
    show vecEqB e1 e2 = true
    rw [vecEqB, if_pos hlen, List.all_eq_true]
    intro i hi
    exact beq_iff_eq.mpr (helem i (List.mem_range.mp hi))
  exact ⟨heq, by rw [pqNeB, heq]; rfl⟩

theorem C10_witness :
    pqEqB ⟨[4, 2], 2, 2⟩ ⟨[4, 2], 8, 8⟩ = true ∧
    pqNeB ⟨[4, 2], 2, 2⟩ ⟨[4, 2], 8, 8⟩ = false :=
  C10_equality_ignores_capacity [4, 2] [4, 2] 2 8 2 8 rfl
    (fun _ _ => rfl)

end LasdHeap
